import Mathlib

/-!
Verification of the Myers-diff header (`src/differ.h`).

The C++ header is shallowly embedded below.  `qsizetype` is a signed
64-bit integer whose values here stay tiny, so it is modelled by `Int`.
The element containers are modelled by `List α` for an arbitrary type
`α` with decidable equality; `operator[]` is modelled by `idx`, which
returns `default` out of range (the C++ source only indexes in range).
The scratch arrays `forward`/`backward` are modelled as total maps
`Int → Int`, threaded through the computation exactly as the C++ code
writes and reads them.  The two unbounded `while` loops of the C++ code
are modelled with an exact iteration count:

* the diagonal slides run at most `oldSize - x` (resp. `x`) times, and
  stop for the same reason the C++ loop stops once that bound is hit;
* the edit-distance loop of `Private::diffPartial` runs exactly
  `max + 1` times (`for d = 0; d <= max; ++d`), after which the C++
  code hits `Q_UNREACHABLE()`, modelled as `none`;
* the slice stack loop of `diff` has no syntactic bound in C++; it is
  given fuel `(|old| + |new| + 1)^2` and returns `none` if the fuel is
  exhausted, so every `some` result is a faithful run of the C++ loop.
-/

namespace Differ

/-- The Snake struct of `differ.h`: a partial match between two lists,
with start/end positions in the old list (`x1`, `x2`) and in the new
list (`y1`, `y2`). -/
structure Snake where
  x1 : Int
  x2 : Int
  y1 : Int
  y2 : Int
deriving Repr, DecidableEq

/-- `Snake::isAddition`: true iff `x1 == x2 && y1 != y2`. -/
def Snake.isAddition (s : Snake) : Bool :=
  decide (s.x1 = s.x2 ∧ s.y1 ≠ s.y2)

/-- `Snake::isRemoval`: true iff `x1 != x2 && y1 == y2`. -/
def Snake.isRemoval (s : Snake) : Bool :=
  decide (s.x1 ≠ s.x2 ∧ s.y1 = s.y2)

/-- The Slice struct of `differ.h`: a rectangular sub-range of the two
lists. -/
structure Slice where
  x1 : Int
  x2 : Int
  y1 : Int
  y2 : Int
deriving Repr, DecidableEq

/-- `Slice::isNull`: both ranges empty. -/
def Slice.isNull (s : Slice) : Bool :=
  decide (s.x2 - s.x1 = 0 ∧ s.y2 - s.y1 = 0)

/-- `InsertOperation` of `differ.h`. -/
structure InsertOperation where
  index : Int
  offset : Int
  count : Int
deriving Repr, DecidableEq

/-- `RemoveOperation` of `differ.h`. -/
structure RemoveOperation where
  offset : Int
  count : Int
deriving Repr, DecidableEq

/-- `MoveOperation` of `differ.h`; the C++ fields `from` and `to` are
Lean keywords and are rendered `fromPos` and `toPos`. -/
structure MoveOperation where
  fromPos : Int
  toPos : Int
  count : Int
deriving Repr, DecidableEq

/-- `EditOperation`, the `std::variant` of the three operations. -/
inductive EditOperation where
  | insert (op : InsertOperation)
  | remove (op : RemoveOperation)
  | move (op : MoveOperation)
deriving Repr, DecidableEq

variable {α : Type} [DecidableEq α] [Inhabited α]

/-- Model of `container[i]` for a signed index: in-range access returns
the element, out-of-range (undefined behaviour in C++, never exercised
by in-range runs) returns `default`. -/
def idx (l : List α) (i : Int) : α :=
  l.getD i.toNat default

/-- Pointwise update of a scratch map, modelling `array[i] = v`. -/
def upd (f : Int → Int) (i v : Int) : Int → Int :=
  fun j => if j = i then v else f j

/-- The forward diagonal slide of `Private::diffPartial`:
`while (x < oldSize && y < newSize && src[slice.x1+x] == dst[slice.y1+y]) { ++x; ++y; }`.
The fuel argument is instantiated with `(oldSize - x).toNat` at the call
site, which is exactly the maximal number of iterations of the C++
loop (each iteration needs `x < oldSize` and increments `x`), so the
fuelled recursion computes precisely the same result. -/
def slideF (src dst : List α) (sx sy oldSize newSize : Int) :
    Nat → Int → Int → Int × Int
  | 0, x, y => (x, y)
  | fuel + 1, x, y =>
    if x < oldSize ∧ y < newSize ∧ idx src (sx + x) = idx dst (sy + y) then
      slideF src dst sx sy oldSize newSize fuel (x + 1) (y + 1)
    else (x, y)

/-- The backward diagonal slide of `Private::diffPartial`:
`while (x > 0 && y > 0 && src[slice.x1+x-1] == dst[slice.y1+y-1]) { --x; --y; }`.
The fuel is instantiated with `x.toNat`, the exact maximal iteration
count of the C++ loop. -/
def slideB (src dst : List α) (sx sy : Int) :
    Nat → Int → Int → Int × Int
  | 0, x, y => (x, y)
  | fuel + 1, x, y =>
    if 0 < x ∧ 0 < y ∧ idx src (sx + x - 1) = idx dst (sy + y - 1) then
      slideB src dst sx sy fuel (x - 1) (y - 1)
    else (x, y)

/-- One pass of the forward `for (k = -d; k <= d; k += 2)` loop of
`Private::diffPartial`, over the explicit list of diagonals `ks`.
Returns the snake of an early `return`, if any, together with the
updated `forward` map. -/
def fwdLoop (src dst : List α) (sl : Slice) (offset delta oldSize newSize d : Int)
    (front : Bool) (bwd : Int → Int) :
    List Int → (Int → Int) → Option Snake × (Int → Int)
  | [], fwd => (none, fwd)
  | k :: ks, fwd =>
    let ox : Int :=
      if k = -d ∨ (k ≠ d ∧ fwd (offset + k - 1) < fwd (offset + k + 1)) then
        fwd (offset + k + 1)
      else fwd (offset + k - 1)
    let x0 : Int :=
      if k = -d ∨ (k ≠ d ∧ fwd (offset + k - 1) < fwd (offset + k + 1)) then ox
      else ox + 1
    let y0 := x0 - k
    let oy := if d = 0 ∨ x0 ≠ ox then y0 else y0 - 1
    let p := slideF src dst sl.x1 sl.y1 oldSize newSize (oldSize - x0).toNat x0 y0
    let x := p.1
    let y := p.2
    let fwd1 := upd fwd (offset + k) x
    let c := k - delta
    if front ∧ -d + 1 ≤ c ∧ c ≤ d - 1 ∧ bwd (offset + c) ≤ y then
      let by0 := bwd (offset + c)
      let bx := by0 + k
      if x ≠ bx then (some ⟨bx, x, by0, y⟩, fwd1)
      else (some ⟨ox, x, oy, y⟩, fwd1)
    else
      fwdLoop src dst sl offset delta oldSize newSize d front bwd ks fwd1

/-- One pass of the backward `for (c = -d; c <= d; c += 2)` loop of
`Private::diffPartial`, over the explicit list of diagonals `cs`. -/
def bwdLoop (src dst : List α) (sl : Slice) (offset delta d : Int)
    (front : Bool) (fwd : Int → Int) :
    List Int → (Int → Int) → Option Snake × (Int → Int)
  | [], bwd => (none, bwd)
  | c :: cs, bwd =>
    let oy : Int :=
      if c = -d ∨ (c ≠ d ∧ bwd (offset + c + 1) < bwd (offset + c - 1)) then
        bwd (offset + c + 1)
      else bwd (offset + c - 1)
    let y0 : Int :=
      if c = -d ∨ (c ≠ d ∧ bwd (offset + c + 1) < bwd (offset + c - 1)) then oy
      else oy - 1
    let k := c + delta
    let x0 := y0 + k
    let ox := if d = 0 ∨ y0 ≠ oy then x0 else x0 + 1
    let p := slideB src dst sl.x1 sl.y1 x0.toNat x0 y0
    let x := p.1
    let y := p.2
    let bwd1 := upd bwd (offset + c) y
    if (!front) ∧ -d ≤ k ∧ k ≤ d ∧ x ≤ fwd (offset + k) then
      let fx := fwd (offset + k)
      let fy := fx - k
      if x ≠ fx then (some ⟨x, fx, y, fy⟩, bwd1)
      else (some ⟨x, ox, y, oy⟩, bwd1)
    else
      bwdLoop src dst sl offset delta d front fwd cs bwd1

/-- The diagonals `-d, -d+2, ..., d` visited by the two inner loops. -/
def diag (d : Nat) : List Int :=
  (List.range (d + 1)).map fun i => -(d : Int) + 2 * i

/-- The `for (d = 0; d <= max; ++d)` loop of `Private::diffPartial`.
The first argument is the number of remaining iterations (`max + 1` at
the top); exhausting it reaches `Q_UNREACHABLE()`, modelled as `none`. -/
def dLoop (src dst : List α) (sl : Slice) (offset delta oldSize newSize : Int)
    (front : Bool) :
    Nat → Nat → (Int → Int) → (Int → Int) →
    Option Snake × (Int → Int) × (Int → Int)
  | 0, _, fwd, bwd => (none, fwd, bwd)
  | fuel + 1, d, fwd, bwd =>
    match fwdLoop src dst sl offset delta oldSize newSize (d : Int) front bwd
        (diag d) fwd with
    | (some s, fwd1) => (some s, fwd1, bwd)
    | (none, fwd1) =>
      match bwdLoop src dst sl offset delta (d : Int) front fwd1 (diag d) bwd with
      | (some s, bwd1) => (some s, fwd1, bwd1)
      | (none, bwd1) =>
        dLoop src dst sl offset delta oldSize newSize front fuel (d + 1) fwd1 bwd1

/-- Embedding of `Private::diffPartial` (named `diffMid` because the
C++ name cannot be used as a Lean identifier here): finds the middle
snake of `sl`, threading the `forward`/`backward` scratch maps.
`none` models reaching `Q_UNREACHABLE()`. -/
def diffMid (sl : Slice) (src dst : List α) (fwd bwd : Int → Int) (offset : Int) :
    Option Snake × (Int → Int) × (Int → Int) :=
  let oldSize := sl.x2 - sl.x1
  let newSize := sl.y2 - sl.y1
  if oldSize < 1 ∨ newSize < 1 then
    (some ⟨0, oldSize, 0, newSize⟩, fwd, bwd)
  else
    let delta := oldSize - newSize
    let mx := (oldSize + newSize + 1) / 2
    let front := decide (delta % 2 ≠ 0)
    let fwd0 := upd fwd (offset + 1) 0
    let bwd0 := upd bwd (offset + 1) newSize
    dLoop src dst sl offset delta oldSize newSize front (mx.toNat + 1) 0 fwd0 bwd0

/-- The slice-stack loop of `diff`: pop a slice, find its middle snake,
shift it to global coordinates, record it if it is a pure addition or
removal, and push the non-null left and right sub-slices (left first,
so the right one is processed first, as with `std::stack`).  The fuel
makes the unbounded C++ `while` loop a total function; `none` is
returned if the fuel runs out or the snake search fails. -/
def driver (oldList newList : List α) (offset : Int) :
    Nat → List Slice → List Snake → (Int → Int) → (Int → Int) →
    Option (List Snake)
  | _, [], snakes, _, _ => some snakes
  | 0, _ :: _, _, _, _ => none
  | fuel + 1, sl :: stack, snakes, fwd, bwd =>
    match diffMid sl oldList newList fwd bwd offset with
    | (none, _, _) => none
    | (some s0, fwd1, bwd1) =>
      let s : Snake := ⟨s0.x1 + sl.x1, s0.x2 + sl.x1, s0.y1 + sl.y1, s0.y2 + sl.y1⟩
      let snakes1 := if s.isAddition || s.isRemoval then snakes ++ [s] else snakes
      let left : Slice := ⟨sl.x1, s.x1, sl.y1, s.y1⟩
      let right : Slice := ⟨s.x2, sl.x2, s.y2, sl.y2⟩
      let stack2 := if !left.isNull then left :: stack else stack
      let stack3 := if !right.isNull then right :: stack2 else stack2
      driver oldList newList offset fuel stack3 snakes1 fwd1 bwd1

/-- The snake collection phase of `diff`: scratch maps initialised to
zero (`std::vector::resize` zero-fills), `offset = max`, and the stack
seeded with the whole-problem slice. -/
def collectSnakes (oldList newList : List α) : Option (List Snake) :=
  let oldN : Int := oldList.length
  let newN : Int := newList.length
  let mx : Int := oldN + newN + ((oldN - newN).natAbs : Int)
  driver oldList newList mx
    ((oldList.length + newList.length + 1) * (oldList.length + newList.length + 1))
    [⟨0, oldN, 0, newN⟩] [] (fun _ => 0) (fun _ => 0)

/-- The comparator of the `std::sort` call, as the weak order the
sorted output satisfies: the C++ strict comparator is
`a.x1 == b.x1 ? a.y1 < b.y1 : a.x1 < b.x1`, and `snakeLe a b` is the
negation of it applied to `(b, a)`. -/
def snakeLe (a b : Snake) : Prop :=
  a.x1 < b.x1 ∨ (a.x1 = b.x1 ∧ a.y1 ≤ b.y1)

instance : DecidableRel snakeLe := fun a b =>
  decidable_of_iff (a.x1 < b.x1 ∨ (a.x1 = b.x1 ∧ a.y1 ≤ b.y1)) Iff.rfl

instance : IsTotal Snake snakeLe :=
  ⟨by intro a b; unfold snakeLe; omega⟩

instance : IsTrans Snake snakeLe :=
  ⟨by intro a b c; unfold snakeLe; omega⟩

/-- The `std::sort(snakes.begin(), snakes.end(), ...)` call, modelled
by a sort producing an output ordered by `snakeLe` (ties between equal
`(x1, y1)` keys, on which `std::sort` is unspecified, are resolved
stably). -/
def sortSnakes (l : List Snake) : List Snake :=
  l.insertionSort snakeLe

/-- One step of the reverse emission loop of `diff` when move detection
is off: an addition snake becomes `Insert{index = x1, offset = y1,
count = y2 - y1}`, a removal snake becomes `Remove{offset = x1,
count = x2 - x1}`, anything else is skipped. -/
def emitOne (s : Snake) : Option EditOperation :=
  if s.isAddition then some (.insert ⟨s.x1, s.y1, s.y2 - s.y1⟩)
  else if s.isRemoval then some (.remove ⟨s.x1, s.x2 - s.x1⟩)
  else none

/-- The move-detection-off emission: traverse the sorted snakes
backwards (`crbegin()..crend()`) and emit the operations. -/
def emitNoMoves (snakes : List Snake) : List EditOperation :=
  ((sortSnakes snakes).reverse).filterMap emitOne

/-- The subdivision loop of the move-detection branch: each addition
snake is split into `y2 - y1` single-count inserts, each removal snake
into `x2 - x1` single-count removes. -/
def subdivide (s : Snake) : List EditOperation :=
  if s.isAddition then
    (List.range (s.y2 - s.y1).toNat).map fun j =>
      .insert ⟨s.x1 + (j : Int), s.y1 + (j : Int), 1⟩
  else if s.isRemoval then
    (List.range (s.x2 - s.x1).toNat).map fun j =>
      .remove ⟨s.x1 + (j : Int), 1⟩
  else []

/-- The full subdivision pass: sorted snakes traversed backwards, each
subdivided. -/
def subdivideAll (snakes : List Snake) : List EditOperation :=
  (((sortSnakes snakes).reverse).map subdivide).flatten

/-- The inner scan of the move-pairing pass starting from an insert:
find the first later `RemoveOperation` whose old element equals the
inserted new element (`oldList[remove.offset] == newList[insert.offset]`),
returning the operations before it, the remove, and the operations
after it. -/
def scanRemove (oldList newList : List α) (ins : InsertOperation) :
    List EditOperation →
    Option (List EditOperation × RemoveOperation × List EditOperation)
  | [] => none
  | op :: rest =>
    match op with
    | .remove r =>
      if idx oldList r.offset = idx newList ins.offset then some ([], r, rest)
      else
        match scanRemove oldList newList ins rest with
        | some (pre, r2, post) => some (op :: pre, r2, post)
        | none => none
    | _ =>
      match scanRemove oldList newList ins rest with
      | some (pre, r2, post) => some (op :: pre, r2, post)
      | none => none

/-- The inner scan of the move-pairing pass starting from a remove:
find the first later matching `InsertOperation`. -/
def scanInsert (oldList newList : List α) (r : RemoveOperation) :
    List EditOperation →
    Option (List EditOperation × InsertOperation × List EditOperation)
  | [] => none
  | op :: rest =>
    match op with
    | .insert ins =>
      if idx oldList r.offset = idx newList ins.offset then some ([], ins, rest)
      else
        match scanInsert oldList newList r rest with
        | some (pre, i2, post) => some (op :: pre, i2, post)
        | none => none
    | _ =>
      match scanInsert oldList newList r rest with
      | some (pre, i2, post) => some (op :: pre, i2, post)
      | none => none

/-- `insert->index -= 1` applied to an operation if it is an insert. -/
def decInsert : EditOperation → EditOperation
  | .insert i => .insert ⟨i.index - 1, i.offset, i.count⟩
  | op => op

/-- Decrement the index of every insert in a list (the compensation
loop `for (k = i+1; k < j; ++k)` of the insert-scanning branch). -/
def decInserts (l : List EditOperation) : List EditOperation :=
  l.map decInsert

/-- The offsets of the insert operations of a list, in order (a helper
for stating properties of the pairing pass). -/
def insOffsets (l : List EditOperation) : List Int :=
  l.filterMap fun op =>
    match op with
    | .insert i => some i.offset
    | _ => none

/-- The move-pairing pass of `diff`.  Processing the operation at the
front (position `i` of the C++ loop):

* an insert scans forward for a matching remove; on a match every
  intervening insert index is decremented, the insert becomes
  `Move{from = remove.offset, to = insert.index - 1, count = 1}` and the
  remove is erased;
* a remove scans forward for a matching insert; on a match the remove
  becomes `Move{from = remove.offset, to = insert.index, count = 1}`
  (no decrement) and the insert is erased;
* anything else is left in place.

The fuel starts at the list length, which dominates the number of
outer-loop iterations (each one removes at least the front element). -/
def pairPassAux (oldList newList : List α) :
    Nat → List EditOperation → List EditOperation
  | _, [] => []
  | 0, l => l
  | fuel + 1, op :: rest =>
    match op with
    | .insert ins =>
      match scanRemove oldList newList ins rest with
      | some (pre, r, post) =>
        .move ⟨r.offset, ins.index - 1, 1⟩ ::
          pairPassAux oldList newList fuel (decInserts pre ++ post)
      | none => op :: pairPassAux oldList newList fuel rest
    | .remove r =>
      match scanInsert oldList newList r rest with
      | some (pre, ins, post) =>
        .move ⟨r.offset, ins.index, 1⟩ ::
          pairPassAux oldList newList fuel (pre ++ post)
      | none => op :: pairPassAux oldList newList fuel rest
    | .move _ => op :: pairPassAux oldList newList fuel rest

/-- The move-pairing pass, entered with adequate fuel. -/
def pairPass (oldList newList : List α) (l : List EditOperation) :
    List EditOperation :=
  pairPassAux oldList newList l.length l

/-- Embedding of `differ::diff`.  The single flag of `DiffOptions` is
modelled by the boolean `detectMoves`.  A `some` result is a faithful
terminating run of the C++ function; `none` covers fuel exhaustion of
the slice loop and the `Q_UNREACHABLE()` branch. -/
def diff (oldList newList : List α) (detectMoves : Bool) :
    Option (List EditOperation) :=
  match collectSnakes oldList newList with
  | none => none
  | some snakes =>
    if detectMoves then some (pairPass oldList newList (subdivideAll snakes))
    else some (emitNoMoves snakes)

/-- Modelled from the spec: the repository has no function applying an
operation list (its `main.cpp` only prints operations), so the
application semantics is taken from the spec's data model, section 3:
`Insert{index, offset, count}` inserts `new[offset..offset+count)` at
position `index` of the evolving list, `Remove{offset, count}` removes
`count` elements at `offset`, and `Move{from, to, count}` removes
`count` elements at `from` and reinserts them at `to`. -/
def applyOp (newList : List α) (cur : List α) : EditOperation → List α
  | .insert i =>
    cur.take i.index.toNat ++ ((newList.drop i.offset.toNat).take i.count.toNat)
      ++ cur.drop i.index.toNat
  | .remove r =>
    cur.take r.offset.toNat ++ cur.drop (r.offset.toNat + r.count.toNat)
  | .move m =>
    let seg := (cur.drop m.fromPos.toNat).take m.count.toNat
    let rest := cur.take m.fromPos.toNat ++ cur.drop (m.fromPos.toNat + m.count.toNat)
    rest.take m.toPos.toNat ++ seg ++ rest.drop m.toPos.toNat

/-- Modelled from the spec: applying a whole operation list strictly in
the returned order. -/
def applyOps (newList : List α) (ops : List EditOperation) (start : List α) :
    List α :=
  ops.foldl (applyOp newList) start

end Differ

namespace Differ

variable {α : Type} [DecidableEq α] [Inhabited α]

/-- On two equal lists the forward diagonal slide starting on the main
diagonal runs to the end of the list. -/
theorem slideF_self (l : List α) :
    ∀ (k : Nat) (x : Int), 0 ≤ x → x + k = l.length →
      slideF l l 0 0 (l.length : Int) (l.length : Int) k x x
        = ((l.length : Int), (l.length : Int))
  | 0, x, h0, hk => by
    simp only [slideF, Prod.mk.injEq]
    omega
  | k + 1, x, h0, hk => by
    rw [slideF, if_pos ⟨by omega, by omega, rfl⟩]
    exact slideF_self l k (x + 1) (by omega) (by omega)

/-- On two equal lists the backward diagonal slide starting on the main
diagonal runs back to the origin. -/
theorem slideB_self (l : List α) :
    ∀ (k : Nat) (x : Int), x = k →
      slideB l l 0 0 k x x = (0, 0)
  | 0, x, hk => by
    simp only [slideB, Prod.mk.injEq]
    omega
  | k + 1, x, hk => by
    rw [slideB, if_pos ⟨by omega, by omega, rfl⟩]
    exact slideB_self l k (x - 1) (by omega)

/-- At edit distance 0 the only diagonal visited is `k = 0`. -/
theorem diag_zero : diag 0 = [0] := by decide

/-- The forward pass at distance 0 on a self-slice finds no overlap
(the front flag is false for even delta) and records the full diagonal
reach. -/
theorem fwdLoop_d0 (l : List α) (offset : Int) (fwd bwd : Int → Int)
    (hf : fwd (offset + 1) = 0) :
    fwdLoop l l (⟨0, (l.length : Int), 0, (l.length : Int)⟩ : Slice) offset 0
        (l.length : Int) (l.length : Int) 0 false bwd [0] fwd
      = (none, upd fwd offset (l.length : Int)) := by
  have hs := slideF_self l l.length 0 (by omega) (by omega)
  simp only [fwdLoop, neg_zero, add_zero, sub_zero, hf]
  norm_num [hs]

/-- The backward pass at distance 0 on a self-slice meets the forward
path and returns the whole-slice diagonal snake. -/
theorem bwdLoop_d0 (l : List α) (offset : Int) (fwd bwd : Int → Int)
    (hb : bwd (offset + 1) = (l.length : Int))
    (hf : fwd offset = (l.length : Int)) :
    bwdLoop l l (⟨0, (l.length : Int), 0, (l.length : Int)⟩ : Slice) offset 0 0
        false fwd [0] bwd
      = (some ⟨0, (l.length : Int), 0, (l.length : Int)⟩, upd bwd offset 0) := by
  have hs := slideB_self l l.length (l.length : Int) rfl
  simp only [bwdLoop, neg_zero, add_zero, sub_zero, hb, hf]
  norm_num [hs, hf]

/-- On a self-slice the middle-snake search succeeds at distance 0 with
the whole-slice diagonal snake. -/
theorem diffMid_self_fst (l : List α) (fwd bwd : Int → Int) (offset : Int) :
    (diffMid (⟨0, (l.length : Int), 0, (l.length : Int)⟩ : Slice) l l fwd bwd offset).1
      = some ⟨0, (l.length : Int), 0, (l.length : Int)⟩ := by
  simp only [diffMid]
  split
  case isTrue h =>
    norm_num
  case isFalse h =>
    simp only [sub_zero, sub_self] at h ⊢
    have hfront : decide ((0 : Int) % 2 ≠ 0) = false := by decide
    rw [hfront, dLoop]
    simp only [Nat.cast_zero, diag_zero]
    rw [fwdLoop_d0 l offset _ _ (by simp [upd])]
    dsimp only
    rw [bwdLoop_d0 l offset _ _ (by simp [upd]) (by simp [upd])]

/-- The slice loop on a self-problem terminates in one step with no
recorded snakes. -/
theorem driver_self (l : List α) (offset : Int) (F : Nat) (fwd bwd : Int → Int) :
    driver l l offset (F + 1) [⟨0, (l.length : Int), 0, (l.length : Int)⟩] [] fwd bwd
      = some [] := by
  rcases hq : diffMid (⟨0, (l.length : Int), 0, (l.length : Int)⟩ : Slice) l l fwd bwd offset
    with ⟨os, f2, b2⟩
  have h1 := diffMid_self_fst l fwd bwd offset
  rw [hq] at h1
  dsimp only at h1
  subst h1
  have hA : ∀ m : Int, Snake.isAddition ⟨0, m, 0, m⟩ = false := by
    intro m; simp [Snake.isAddition]
  have hR : ∀ m : Int, Snake.isRemoval ⟨0, m, 0, m⟩ = false := by
    intro m; simp [Snake.isRemoval]
  have hN : ∀ m : Int, Slice.isNull ⟨m, m, m, m⟩ = true := by
    intro m; simp [Slice.isNull]
  simp only [driver, hq]
  norm_num [hA, hR, hN]
  simp [driver]

/-- C3: for every sequence S, including the empty sequence, diff(S, S)
returns the empty operation list. -/
theorem diff_self (l : List α) : diff l l false = some ([] : List EditOperation) := by
  have hpos : 0 < (l.length + l.length + 1) * (l.length + l.length + 1) := by positivity
  obtain ⟨F, hF⟩ : ∃ F, (l.length + l.length + 1) * (l.length + l.length + 1) = F + 1 :=
    ⟨_, (Nat.succ_pred_eq_of_pos hpos).symm⟩
  simp only [diff, collectSnakes, hF]
  rw [driver_self]
  simp [emitNoMoves, sortSnakes]

/-- Witness for C3 at a concrete sequence. -/
theorem diff_self_witness : diff ([1, 2, 3] : List Nat) [1, 2, 3] false = some [] :=
  diff_self [1, 2, 3]

/-- C9: diff of the character lists "tree" and "free" without move
detection returns exactly the remove of one element at offset 0
followed by the insert of one element at index 0, in that order. -/
theorem tree_free :
    diff ['t','r','e','e'] ['f','r','e','e'] false
      = some [.remove ⟨0, 1⟩, .insert ⟨0, 0, 1⟩] := by rfl

/-- C1 (failing input): on old = "a", new = "aba" the code returns two
insert operations that copy new[2] and new[0] (both equal to the
character a) and never insert new[1] = b; applying the returned list in
order yields "aaa", not "aba", so the round-trip property fails.  The
middle-snake search returned the invalid snake (0, 1, 1, 2), which
claims old[0] = a matches new[1] = b. -/
theorem roundTrip_bug_a_aba :
    diff ['a'] ['a','b','a'] false = some [.insert ⟨1, 2, 1⟩, .insert ⟨0, 0, 1⟩] ∧
    applyOps ['a','b','a'] [.insert ⟨1, 2, 1⟩, .insert ⟨0, 0, 1⟩] ['a'] = ['a','a','a'] ∧
    (['a','a','a'] : List Char) ≠ ['a','b','a'] := by
  refine ⟨by rfl, by rfl, by decide⟩

/-- With zero fuel the pairing pass returns its input unchanged. -/
theorem pairPassAux_zero (oldL newL : List α) (l : List EditOperation) :
    pairPassAux oldL newL 0 l = l := by
  cases l <;> rfl

/-- A successful forward scan for a matching remove splits the list at
the first remove whose old element equals the inserted new element. -/
theorem scanRemove_split (oldL newL : List α) (ins : InsertOperation) :
    ∀ (l pre : List EditOperation) (r : RemoveOperation) (post : List EditOperation),
      scanRemove oldL newL ins l = some (pre, r, post) →
      l = pre ++ .remove r :: post ∧ idx oldL r.offset = idx newL ins.offset
  | [], pre, r, post, h => by simp [scanRemove] at h
  | op :: rest, pre, r, post, h => by
    match op with
    | .remove r0 =>
      rw [scanRemove] at h
      by_cases he : idx oldL r0.offset = idx newL ins.offset
      · rw [if_pos he] at h
        obtain ⟨rfl, rfl, rfl⟩ : pre = [] ∧ r0 = r ∧ rest = post := by
          simpa using h
        exact ⟨rfl, he⟩
      · rw [if_neg he] at h
        rcases hsc : scanRemove oldL newL ins rest with _ | ⟨pre2, r2, post2⟩ <;>
          rw [hsc] at h
        · simp at h
        · obtain ⟨rfl, rfl, rfl⟩ : EditOperation.remove r0 :: pre2 = pre ∧ r2 = r ∧ post2 = post := by
            simpa using h
          obtain ⟨h1, h2⟩ := scanRemove_split oldL newL ins rest pre2 r2 post2 hsc
          exact ⟨by simp [h1], h2⟩
    | .insert i0 =>
      rw [scanRemove] at h
      rcases hsc : scanRemove oldL newL ins rest with _ | ⟨pre2, r2, post2⟩ <;>
        rw [hsc] at h
      · simp at h
      · obtain ⟨rfl, rfl, rfl⟩ : EditOperation.insert i0 :: pre2 = pre ∧ r2 = r ∧ post2 = post := by
          simpa using h
        obtain ⟨h1, h2⟩ := scanRemove_split oldL newL ins rest pre2 r2 post2 hsc
        exact ⟨by simp [h1], h2⟩
      intro _ h'
      cases h'
    | .move m0 =>
      rw [scanRemove] at h
      rcases hsc : scanRemove oldL newL ins rest with _ | ⟨pre2, r2, post2⟩ <;>
        rw [hsc] at h
      · simp at h
      · obtain ⟨rfl, rfl, rfl⟩ : EditOperation.move m0 :: pre2 = pre ∧ r2 = r ∧ post2 = post := by
          simpa using h
        obtain ⟨h1, h2⟩ := scanRemove_split oldL newL ins rest pre2 r2 post2 hsc
        exact ⟨by simp [h1], h2⟩
      intro _ h'
      cases h'

/-- A successful forward scan for a matching insert splits the list at
the first insert whose new element equals the removed old element. -/
theorem scanInsert_split (oldL newL : List α) (r : RemoveOperation) :
    ∀ (l pre : List EditOperation) (ins : InsertOperation) (post : List EditOperation),
      scanInsert oldL newL r l = some (pre, ins, post) →
      l = pre ++ .insert ins :: post ∧ idx oldL r.offset = idx newL ins.offset
  | [], pre, ins, post, h => by simp [scanInsert] at h
  | op :: rest, pre, ins, post, h => by
    match op with
    | .insert i0 =>
      rw [scanInsert] at h
      by_cases he : idx oldL r.offset = idx newL i0.offset
      · rw [if_pos he] at h
        obtain ⟨rfl, rfl, rfl⟩ : pre = [] ∧ i0 = ins ∧ rest = post := by
          simpa using h
        exact ⟨rfl, he⟩
      · rw [if_neg he] at h
        rcases hsc : scanInsert oldL newL r rest with _ | ⟨pre2, i2, post2⟩ <;>
          rw [hsc] at h
        · simp at h
        · obtain ⟨rfl, rfl, rfl⟩ : EditOperation.insert i0 :: pre2 = pre ∧ i2 = ins ∧ post2 = post := by
            simpa using h
          obtain ⟨h1, h2⟩ := scanInsert_split oldL newL r rest pre2 i2 post2 hsc
          exact ⟨by simp [h1], h2⟩
    | .remove r0 =>
      rw [scanInsert] at h
      rcases hsc : scanInsert oldL newL r rest with _ | ⟨pre2, i2, post2⟩ <;>
        rw [hsc] at h
      · simp at h
      · obtain ⟨rfl, rfl, rfl⟩ : EditOperation.remove r0 :: pre2 = pre ∧ i2 = ins ∧ post2 = post := by
          simpa using h
        obtain ⟨h1, h2⟩ := scanInsert_split oldL newL r rest pre2 i2 post2 hsc
        exact ⟨by simp [h1], h2⟩
      intro _ h'
      cases h'
    | .move m0 =>
      rw [scanInsert] at h
      rcases hsc : scanInsert oldL newL r rest with _ | ⟨pre2, i2, post2⟩ <;>
        rw [hsc] at h
      · simp at h
      · obtain ⟨rfl, rfl, rfl⟩ : EditOperation.move m0 :: pre2 = pre ∧ i2 = ins ∧ post2 = post := by
          simpa using h
        obtain ⟨h1, h2⟩ := scanInsert_split oldL newL r rest pre2 i2 post2 hsc
        exact ⟨by simp [h1], h2⟩
      intro _ h'
      cases h'

/-- Computation rules for the insert offsets of an operation list. -/
theorem insOffsets_nil : insOffsets [] = [] := rfl

theorem insOffsets_cons_insert (i : InsertOperation) (rest : List EditOperation) :
    insOffsets (.insert i :: rest) = i.offset :: insOffsets rest := by
  simp [insOffsets, List.filterMap_cons]

theorem insOffsets_cons_remove (r : RemoveOperation) (rest : List EditOperation) :
    insOffsets (.remove r :: rest) = insOffsets rest := by
  simp [insOffsets, List.filterMap_cons]

theorem insOffsets_cons_move (m : MoveOperation) (rest : List EditOperation) :
    insOffsets (.move m :: rest) = insOffsets rest := by
  simp [insOffsets, List.filterMap_cons]

theorem insOffsets_append (l1 l2 : List EditOperation) :
    insOffsets (l1 ++ l2) = insOffsets l1 ++ insOffsets l2 := by
  simp [insOffsets, List.filterMap_append]

theorem insOffsets_decInserts (l : List EditOperation) :
    insOffsets (decInserts l) = insOffsets l := by
  induction l with
  | nil => rfl
  | cons op rest ih =>
    cases op with
    | insert i =>
      simp only [decInserts, List.map_cons] at *
      simp only [decInsert, insOffsets_cons_insert, ih]
    | remove r =>
      simp only [decInserts, List.map_cons] at *
      simp only [decInsert, insOffsets_cons_remove, ih]
    | move m =>
      simp only [decInserts, List.map_cons] at *
      simp only [decInsert, insOffsets_cons_move, ih]

/-- Decrementing insert indices neither creates nor destroys moves. -/
theorem move_mem_decInserts {m : MoveOperation} {l : List EditOperation}
    (h : EditOperation.move m ∈ decInserts l) : EditOperation.move m ∈ l := by
  rcases List.mem_map.1 h with ⟨x, hx, hmap⟩
  cases x with
  | insert i => simp [decInsert] at hmap
  | remove r => simp [decInsert] at hmap
  | move mv =>
    simp only [decInsert] at hmap
    rwa [← hmap]

/-- Decrementing insert indices leaves removes unchanged. -/
theorem remove_mem_decInserts {r : RemoveOperation} {l : List EditOperation}
    (h : EditOperation.remove r ∈ decInserts l) : EditOperation.remove r ∈ l := by
  rcases List.mem_map.1 h with ⟨x, hx, hmap⟩
  cases x with
  | insert i => simp [decInsert] at hmap
  | move mv => simp [decInsert] at hmap
  | remove r0 =>
    simp only [decInsert] at hmap
    rwa [← hmap]

/-- An insert of the decremented list comes from an insert of the
original list with the same count. -/
theorem insert_mem_decInserts {i : InsertOperation} {l : List EditOperation}
    (h : EditOperation.insert i ∈ decInserts l) :
    ∃ i0 : InsertOperation, EditOperation.insert i0 ∈ l ∧ i0.count = i.count := by
  rcases List.mem_map.1 h with ⟨x, hx, hmap⟩
  cases x with
  | remove r => simp [decInsert] at hmap
  | move mv => simp [decInsert] at hmap
  | insert i0 =>
    simp only [decInsert, EditOperation.insert.injEq] at hmap
    exact ⟨i0, hx, by rw [← hmap]⟩

/-- Every move produced by the pairing pass either was in the input or
is a fresh single-count move pairing a remove offset with the offset of
some insert of the input whose element values agree. -/
theorem pairPassAux_moves (oldL newL : List α) :
    ∀ (fuel : Nat) (l : List EditOperation) (m : MoveOperation),
      EditOperation.move m ∈ pairPassAux oldL newL fuel l →
      EditOperation.move m ∈ l ∨
        (m.count = 1 ∧ ∃ o ∈ insOffsets l, idx oldL m.fromPos = idx newL o)
  | 0, l, m => fun h => Or.inl (by rwa [pairPassAux_zero] at h)
  | fuel + 1, [], m => by
    intro h
    simp [pairPassAux] at h
  | fuel + 1, op :: rest, m => by
    intro h
    match op with
    | .insert ins =>
      simp only [pairPassAux] at h
      rcases hsc : scanRemove oldL newL ins rest with _ | ⟨pre, r, post⟩ <;> rw [hsc] at h
      · rcases List.mem_cons.1 h with h1 | h1
        · cases h1
        · rcases pairPassAux_moves oldL newL fuel rest m h1 with h2 | ⟨hc, o, ho, he⟩
          · exact Or.inl (List.mem_cons_of_mem _ h2)
          · refine Or.inr ⟨hc, o, ?_, he⟩
            rw [insOffsets_cons_insert]
            exact List.mem_cons_of_mem _ ho
      · obtain ⟨hsplit, hval⟩ := scanRemove_split oldL newL ins rest pre r post hsc
        rcases List.mem_cons.1 h with h1 | h1
        · obtain rfl : m = ⟨r.offset, ins.index - 1, 1⟩ := by
            injection h1
          refine Or.inr ⟨rfl, ins.offset, ?_, ?_⟩
          · rw [insOffsets_cons_insert]
            exact List.mem_cons_self _ _
          · simpa using hval
        · rcases pairPassAux_moves oldL newL fuel (decInserts pre ++ post) m h1 with
            h2 | ⟨hc, o, ho, he⟩
          · left
            refine List.mem_cons_of_mem _ ?_
            rw [hsplit]
            rcases List.mem_append.1 h2 with h3 | h3
            · exact List.mem_append_left _ (move_mem_decInserts h3)
            · exact List.mem_append_right _ (List.mem_cons_of_mem _ h3)
          · refine Or.inr ⟨hc, o, ?_, he⟩
            rw [insOffsets_append, insOffsets_decInserts] at ho
            rw [insOffsets_cons_insert]
            refine List.mem_cons_of_mem _ ?_
            rw [hsplit, insOffsets_append, insOffsets_cons_remove]
            exact List.mem_append.2 (List.mem_append.1 ho)
    | .remove r0 =>
      simp only [pairPassAux] at h
      rcases hsc : scanInsert oldL newL r0 rest with _ | ⟨pre, ins, post⟩ <;> rw [hsc] at h
      · rcases List.mem_cons.1 h with h1 | h1
        · cases h1
        · rcases pairPassAux_moves oldL newL fuel rest m h1 with h2 | ⟨hc, o, ho, he⟩
          · exact Or.inl (List.mem_cons_of_mem _ h2)
          · refine Or.inr ⟨hc, o, ?_, he⟩
            rw [insOffsets_cons_remove]
            exact ho
      · obtain ⟨hsplit, hval⟩ := scanInsert_split oldL newL r0 rest pre ins post hsc
        rcases List.mem_cons.1 h with h1 | h1
        · obtain rfl : m = ⟨r0.offset, ins.index, 1⟩ := by
            injection h1
          refine Or.inr ⟨rfl, ins.offset, ?_, ?_⟩
          · rw [insOffsets_cons_remove, hsplit, insOffsets_append, insOffsets_cons_insert]
            exact List.mem_append_right _ (List.mem_cons_self _ _)
          · simpa using hval
        · rcases pairPassAux_moves oldL newL fuel (pre ++ post) m h1 with
            h2 | ⟨hc, o, ho, he⟩
          · left
            refine List.mem_cons_of_mem _ ?_
            rw [hsplit]
            rcases List.mem_append.1 h2 with h3 | h3
            · exact List.mem_append_left _ h3
            · exact List.mem_append_right _ (List.mem_cons_of_mem _ h3)
          · refine Or.inr ⟨hc, o, ?_, he⟩
            rw [insOffsets_append] at ho
            rw [insOffsets_cons_remove, hsplit, insOffsets_append, insOffsets_cons_insert]
            rcases List.mem_append.1 ho with h3 | h3
            · exact List.mem_append_left _ h3
            · exact List.mem_append_right _ (List.mem_cons_of_mem _ h3)
    | .move mv =>
      simp only [pairPassAux] at h
      rcases List.mem_cons.1 h with h1 | h1
      · rw [h1]
        exact Or.inl (List.mem_cons_self _ _)
      · rcases pairPassAux_moves oldL newL fuel rest m h1 with h2 | ⟨hc, o, ho, he⟩
        · exact Or.inl (List.mem_cons_of_mem _ h2)
        · refine Or.inr ⟨hc, o, ?_, he⟩
          rw [insOffsets_cons_move]
          exact ho

/-- A single subdivided snake yields only unit-count operations. -/
theorem subdivide_mem (s : Snake) (op : EditOperation) (h : op ∈ subdivide s) :
    (∃ i : InsertOperation, op = .insert i ∧ i.count = 1) ∨
    (∃ r : RemoveOperation, op = .remove r ∧ r.count = 1) := by
  unfold subdivide at h
  split at h
  · rcases List.mem_map.1 h with ⟨j, hj, rfl⟩
    exact Or.inl ⟨_, rfl, rfl⟩
  · split at h
    · rcases List.mem_map.1 h with ⟨j, hj, rfl⟩
      exact Or.inr ⟨_, rfl, rfl⟩
    · simp at h

/-- The subdivision pass only emits unit-count inserts and removes. -/
theorem subdivideAll_mem (sn : List Snake) (op : EditOperation)
    (h : op ∈ subdivideAll sn) :
    (∃ i : InsertOperation, op = .insert i ∧ i.count = 1) ∨
    (∃ r : RemoveOperation, op = .remove r ∧ r.count = 1) := by
  unfold subdivideAll at h
  rcases List.mem_flatten.1 h with ⟨chunk, hchunk, hop⟩
  rcases List.mem_map.1 hchunk with ⟨s, hs, rfl⟩
  exact subdivide_mem s op hop

/-- The subdivision pass emits no move operation. -/
theorem subdivideAll_no_move (sn : List Snake) (m : MoveOperation) :
    EditOperation.move m ∉ subdivideAll sn := by
  intro h
  rcases subdivideAll_mem sn _ h with ⟨i, hi2, -⟩ | ⟨r, hr2, -⟩
  · cases hi2
  · cases hr2

/-- The pairing pass preserves the all-counts-one invariant of the
insert and remove operations. -/
theorem pairPassAux_counts (oldL newL : List α) :
    ∀ (fuel : Nat) (l : List EditOperation),
      (∀ i : InsertOperation, EditOperation.insert i ∈ l → i.count = 1) →
      (∀ r : RemoveOperation, EditOperation.remove r ∈ l → r.count = 1) →
      (∀ i : InsertOperation, EditOperation.insert i ∈ pairPassAux oldL newL fuel l →
        i.count = 1) ∧
      (∀ r : RemoveOperation, EditOperation.remove r ∈ pairPassAux oldL newL fuel l →
        r.count = 1)
  | 0, l, hi, hr => by
    rw [pairPassAux_zero]
    exact ⟨hi, hr⟩
  | fuel + 1, [], hi, hr => by
    constructor <;> intro x hx <;> simp [pairPassAux] at hx
  | fuel + 1, op :: rest, hi, hr => by
    have hiT : ∀ i : InsertOperation, EditOperation.insert i ∈ rest → i.count = 1 :=
      fun i h => hi i (List.mem_cons_of_mem _ h)
    have hrT : ∀ r : RemoveOperation, EditOperation.remove r ∈ rest → r.count = 1 :=
      fun r h => hr r (List.mem_cons_of_mem _ h)
    match op with
    | .insert ins =>
      rcases hsc : scanRemove oldL newL ins rest with _ | ⟨pre, r, post⟩
      · have ih := pairPassAux_counts oldL newL fuel rest hiT hrT
        constructor <;> intro x hx <;> simp only [pairPassAux, hsc] at hx
        · rcases List.mem_cons.1 hx with h1 | h1
          · injection h1 with h2
            rw [h2]
            exact hi ins (List.mem_cons_self _ _)
          · exact ih.1 x h1
        · rcases List.mem_cons.1 hx with h1 | h1
          · cases h1
          · exact ih.2 x h1
      · obtain ⟨hsplit, -⟩ := scanRemove_split oldL newL ins rest pre r post hsc
        have hiR : ∀ i : InsertOperation,
            EditOperation.insert i ∈ decInserts pre ++ post → i.count = 1 := by
          intro i h
          rcases List.mem_append.1 h with h3 | h3
          · obtain ⟨i0, hi0, hc⟩ := insert_mem_decInserts h3
            rw [← hc]
            exact hiT i0 (by rw [hsplit]; exact List.mem_append_left _ hi0)
          · exact hiT i (by rw [hsplit]; exact List.mem_append_right _ (List.mem_cons_of_mem _ h3))
        have hrR : ∀ r2 : RemoveOperation,
            EditOperation.remove r2 ∈ decInserts pre ++ post → r2.count = 1 := by
          intro r2 h
          rcases List.mem_append.1 h with h3 | h3
          · exact hrT r2 (by rw [hsplit]; exact List.mem_append_left _ (remove_mem_decInserts h3))
          · exact hrT r2 (by rw [hsplit]; exact List.mem_append_right _ (List.mem_cons_of_mem _ h3))
        have ih := pairPassAux_counts oldL newL fuel (decInserts pre ++ post) hiR hrR
        constructor <;> intro x hx <;> simp only [pairPassAux, hsc] at hx
        · rcases List.mem_cons.1 hx with h1 | h1
          · cases h1
          · exact ih.1 x h1
        · rcases List.mem_cons.1 hx with h1 | h1
          · cases h1
          · exact ih.2 x h1
    | .remove r0 =>
      rcases hsc : scanInsert oldL newL r0 rest with _ | ⟨pre, ins, post⟩
      · have ih := pairPassAux_counts oldL newL fuel rest hiT hrT
        constructor <;> intro x hx <;> simp only [pairPassAux, hsc] at hx
        · rcases List.mem_cons.1 hx with h1 | h1
          · cases h1
          · exact ih.1 x h1
        · rcases List.mem_cons.1 hx with h1 | h1
          · injection h1 with h2
            rw [h2]
            exact hr r0 (List.mem_cons_self _ _)
          · exact ih.2 x h1
      · obtain ⟨hsplit, -⟩ := scanInsert_split oldL newL r0 rest pre ins post hsc
        have hiR : ∀ i : InsertOperation,
            EditOperation.insert i ∈ pre ++ post → i.count = 1 := by
          intro i h
          rcases List.mem_append.1 h with h3 | h3
          · exact hiT i (by rw [hsplit]; exact List.mem_append_left _ h3)
          · exact hiT i (by rw [hsplit]; exact List.mem_append_right _ (List.mem_cons_of_mem _ h3))
        have hrR : ∀ r2 : RemoveOperation,
            EditOperation.remove r2 ∈ pre ++ post → r2.count = 1 := by
          intro r2 h
          rcases List.mem_append.1 h with h3 | h3
          · exact hrT r2 (by rw [hsplit]; exact List.mem_append_left _ h3)
          · exact hrT r2 (by rw [hsplit]; exact List.mem_append_right _ (List.mem_cons_of_mem _ h3))
        have ih := pairPassAux_counts oldL newL fuel (pre ++ post) hiR hrR
        constructor <;> intro x hx <;> simp only [pairPassAux, hsc] at hx
        · rcases List.mem_cons.1 hx with h1 | h1
          · cases h1
          · exact ih.1 x h1
        · rcases List.mem_cons.1 hx with h1 | h1
          · cases h1
          · exact ih.2 x h1
    | .move mv =>
      have ih := pairPassAux_counts oldL newL fuel rest hiT hrT
      constructor <;> intro x hx <;> simp only [pairPassAux] at hx
      · rcases List.mem_cons.1 hx with h1 | h1
        · cases h1
        · exact ih.1 x h1
      · rcases List.mem_cons.1 hx with h1 | h1
        · cases h1
        · exact ih.2 x h1

/-- Decrementing insert indices preserves length. -/
theorem decInserts_length (l : List EditOperation) :
    (decInserts l).length = l.length := by
  simp [decInserts]

/-- The pairing pass does not depend on the fuel, provided the fuel
dominates the list length. -/
theorem pairPassAux_fuel (oldL newL : List α) :
    ∀ (f1 : Nat) (l : List EditOperation) (f2 : Nat), l.length ≤ f1 → l.length ≤ f2 →
      pairPassAux oldL newL f1 l = pairPassAux oldL newL f2 l
  | 0, l, f2, h1, h2 => by
    have hl : l = [] := List.length_eq_zero.1 (Nat.le_zero.1 h1)
    subst hl
    cases f2 <;> rfl
  | f1 + 1, [], f2, h1, h2 => by
    cases f2 <;> rfl
  | f1 + 1, op :: rest, f2, h1, h2 => by
    obtain ⟨f2', rfl⟩ : ∃ f2', f2 = f2' + 1 := by
      cases f2
      · simp at h2
      · exact ⟨_, rfl⟩
    simp only [List.length_cons, Nat.add_le_add_iff_right] at h1 h2
    match op with
    | .insert ins =>
      rcases hsc : scanRemove oldL newL ins rest with _ | ⟨pre, r, post⟩ <;>
        simp only [pairPassAux, hsc]
      · rw [pairPassAux_fuel oldL newL f1 rest f2' h1 h2]
      · obtain ⟨hsplit, -⟩ := scanRemove_split oldL newL ins rest pre r post hsc
        have hl3 : rest.length = pre.length + post.length + 1 := by
          rw [hsplit]; simp; omega
        have hl4 : (decInserts pre ++ post).length = pre.length + post.length := by
          simp [decInserts_length]
        rw [pairPassAux_fuel oldL newL f1 (decInserts pre ++ post) f2'
          (by omega) (by omega)]
    | .remove r0 =>
      rcases hsc : scanInsert oldL newL r0 rest with _ | ⟨pre, ins, post⟩ <;>
        simp only [pairPassAux, hsc]
      · rw [pairPassAux_fuel oldL newL f1 rest f2' h1 h2]
      · obtain ⟨hsplit, -⟩ := scanInsert_split oldL newL r0 rest pre ins post hsc
        have hl3 : rest.length = pre.length + post.length + 1 := by
          rw [hsplit]; simp; omega
        have hl4 : (pre ++ post).length = pre.length + post.length := by
          simp
        rw [pairPassAux_fuel oldL newL f1 (pre ++ post) f2' (by omega) (by omega)]
    | .move mv =>
      simp only [pairPassAux]
      rw [pairPassAux_fuel oldL newL f1 rest f2' h1 h2]

/-- Unfolding equation of the pairing pass for a front insert with a
matching remove ahead. -/
theorem pairPass_cons_insert (oldL newL : List α) (ins : InsertOperation)
    (rest pre : List EditOperation) (r : RemoveOperation) (post : List EditOperation)
    (hsc : scanRemove oldL newL ins rest = some (pre, r, post)) :
    pairPass oldL newL (.insert ins :: rest)
      = .move ⟨r.offset, ins.index - 1, 1⟩ ::
          pairPass oldL newL (decInserts pre ++ post) := by
  obtain ⟨hsplit, -⟩ := scanRemove_split oldL newL ins rest pre r post hsc
  have hl3 : rest.length = pre.length + post.length + 1 := by
    rw [hsplit]; simp; omega
  have hl4 : (decInserts pre ++ post).length = pre.length + post.length := by
    simp [decInserts_length]
  unfold pairPass
  simp only [List.length_cons, pairPassAux, hsc]
  congr 1
  exact pairPassAux_fuel oldL newL rest.length (decInserts pre ++ post)
    (decInserts pre ++ post).length (by omega) (by omega)

/-- Unfolding equation of the pairing pass for a front remove with a
matching insert ahead. -/
theorem pairPass_cons_remove (oldL newL : List α) (r0 : RemoveOperation)
    (rest pre : List EditOperation) (ins : InsertOperation) (post : List EditOperation)
    (hsc : scanInsert oldL newL r0 rest = some (pre, ins, post)) :
    pairPass oldL newL (.remove r0 :: rest)
      = .move ⟨r0.offset, ins.index, 1⟩ :: pairPass oldL newL (pre ++ post) := by
  obtain ⟨hsplit, -⟩ := scanInsert_split oldL newL r0 rest pre ins post hsc
  have hl3 : rest.length = pre.length + post.length + 1 := by
    rw [hsplit]; simp; omega
  unfold pairPass
  simp only [List.length_cons, pairPassAux, hsc]
  congr 1
  exact pairPassAux_fuel oldL newL rest.length (pre ++ post)
    (pre ++ post).length (by simp; omega) (by omega)

/-- C5: without move detection the output of diff is obtained by
sorting the collected snakes ascending by (x1, then y1) and emitting
them in reverse order, addition snakes as inserts with index x1, offset
y1, count y2 - y1 and removal snakes as removes with offset x1, count
x2 - x1, all in original coordinates, so the returned list is ordered
by descending (x1, y1). -/
theorem emission_sorted_reverse (oldL newL : List α) (ops : List EditOperation)
    (h : diff oldL newL false = some ops) :
    ∃ sn, collectSnakes oldL newL = some sn ∧
      ops = ((sortSnakes sn).reverse).filterMap emitOne ∧
      (sortSnakes sn).Perm sn ∧
      List.Pairwise (fun a b => snakeLe b a) ((sortSnakes sn).reverse) := by
  unfold diff at h
  rcases hc : collectSnakes oldL newL with _ | sn <;> rw [hc] at h
  · cases h
  · simp only [Bool.false_eq_true, if_false, Option.some.injEq] at h
    refine ⟨sn, rfl, ?_, List.perm_insertionSort snakeLe sn, ?_⟩
    · rw [← h]
      rfl
    · rw [List.pairwise_reverse]
      exact List.sorted_insertionSort snakeLe sn

/-- Witness for C5 on the diff of "tree" and "free". -/
theorem emission_sorted_reverse_witness :
    ∃ sn, collectSnakes (['t','r','e','e'] : List Char) ['f','r','e','e'] = some sn ∧
      [EditOperation.remove ⟨0, 1⟩, EditOperation.insert ⟨0, 0, 1⟩]
        = ((sortSnakes sn).reverse).filterMap emitOne ∧
      (sortSnakes sn).Perm sn ∧
      List.Pairwise (fun a b => snakeLe b a) ((sortSnakes sn).reverse) :=
  emission_sorted_reverse _ _ _ rfl

/-- C6: with DetectMoves, every move in the output pairs the removed
old element with an insert offset of the subdivided operation list
carrying an equal new element: old at move.from equals new at the
paired insert offset. -/
theorem move_value_sound (oldL newL : List α) (res : List EditOperation)
    (m : MoveOperation) (h : diff oldL newL true = some res)
    (hm : EditOperation.move m ∈ res) :
    ∃ sn, collectSnakes oldL newL = some sn ∧
      ∃ o ∈ insOffsets (subdivideAll sn), idx oldL m.fromPos = idx newL o := by
  unfold diff at h
  rcases hc : collectSnakes oldL newL with _ | sn <;> rw [hc] at h
  · cases h
  · simp only [if_true, Option.some.injEq] at h
    rw [← h] at hm
    unfold pairPass at hm
    rcases pairPassAux_moves oldL newL _ _ m hm with h2 | ⟨-, o, ho, he⟩
    · exact absurd h2 (subdivideAll_no_move sn m)
    · exact ⟨sn, rfl, o, ho, he⟩

/-- Witness for C6 on the move-detecting diff of "abcd" and "acbd". -/
theorem move_value_sound_witness :
    ∃ sn, collectSnakes (['a','b','c','d'] : List Char) ['a','c','b','d'] = some sn ∧
      ∃ o ∈ insOffsets (subdivideAll sn),
        idx (['a','b','c','d'] : List Char) (⟨2, 1, 1⟩ : MoveOperation).fromPos
          = idx (['a','c','b','d'] : List Char) o :=
  move_value_sound _ _ _ _ rfl (by decide)

/-- C8: with DetectMoves every move operation in the returned list has
count exactly one. -/
theorem move_count_one (oldL newL : List α) (res : List EditOperation)
    (m : MoveOperation) (h : diff oldL newL true = some res)
    (hm : EditOperation.move m ∈ res) :
    m.count = 1 := by
  unfold diff at h
  rcases hc : collectSnakes oldL newL with _ | sn <;> rw [hc] at h
  · cases h
  · simp only [if_true, Option.some.injEq] at h
    rw [← h] at hm
    unfold pairPass at hm
    rcases pairPassAux_moves oldL newL _ _ m hm with h2 | ⟨hcnt, -⟩
    · exact absurd h2 (subdivideAll_no_move sn m)
    · exact hcnt

/-- Witness for C8 on the move-detecting diff of "abcd" and "acbd". -/
theorem move_count_one_witness : (⟨2, 1, 1⟩ : MoveOperation).count = 1 :=
  move_count_one (['a','b','c','d'] : List Char) ['a','c','b','d']
    [.move ⟨2, 1, 1⟩] ⟨2, 1, 1⟩ rfl (by decide)

/-- C10: with DetectMoves every insert and every remove remaining in
the returned list also has count exactly one: multi-element edits are
subdivided before pairing and never re-merged. -/
theorem detectMoves_unit_counts (oldL newL : List α) (res : List EditOperation)
    (h : diff oldL newL true = some res) :
    (∀ i : InsertOperation, EditOperation.insert i ∈ res → i.count = 1) ∧
    (∀ r : RemoveOperation, EditOperation.remove r ∈ res → r.count = 1) := by
  unfold diff at h
  rcases hc : collectSnakes oldL newL with _ | sn <;> rw [hc] at h
  · cases h
  · simp only [if_true, Option.some.injEq] at h
    rw [← h]
    unfold pairPass
    have hi : ∀ i : InsertOperation, EditOperation.insert i ∈ subdivideAll sn →
        i.count = 1 := by
      intro i hmem
      rcases subdivideAll_mem sn _ hmem with ⟨i0, he, hcnt⟩ | ⟨r0, he, hcnt⟩
      · injection he with h3
        rw [h3]
        exact hcnt
      · cases he
    have hr : ∀ r : RemoveOperation, EditOperation.remove r ∈ subdivideAll sn →
        r.count = 1 := by
      intro r hmem
      rcases subdivideAll_mem sn _ hmem with ⟨i0, he, hcnt⟩ | ⟨r0, he, hcnt⟩
      · cases he
      · injection he with h3
        rw [h3]
        exact hcnt
    exact pairPassAux_counts oldL newL _ _ hi hr

/-- Witness for C10 on the move-detecting diff of "" and "ab", where no
move is produced yet the two-element insert arrives split into two unit
inserts. -/
theorem detectMoves_unit_counts_witness : (⟨0, 0, 1⟩ : InsertOperation).count = 1 :=
  (detectMoves_unit_counts ([] : List Char) ['a','b']
    [.insert ⟨0, 0, 1⟩, .insert ⟨1, 1, 1⟩] rfl).1 ⟨0, 0, 1⟩ (by decide)

/-- C7: the insert-scanning branch of the pairing pass decrements every
intervening insert index by one and produces a move with from equal to
the remove offset and to equal to the insert index minus one, while the
remove-scanning branch produces a move with to equal to the insert
index unchanged and decrements nothing. -/
theorem pairing_branch_asymmetry :
    (∀ (oldL newL : List α) (ins : InsertOperation) (rest pre : List EditOperation)
        (r : RemoveOperation) (post : List EditOperation),
      scanRemove oldL newL ins rest = some (pre, r, post) →
      pairPass oldL newL (.insert ins :: rest)
        = .move ⟨r.offset, ins.index - 1, 1⟩ ::
            pairPass oldL newL (decInserts pre ++ post)) ∧
    (∀ (oldL newL : List α) (r0 : RemoveOperation) (rest pre : List EditOperation)
        (ins : InsertOperation) (post : List EditOperation),
      scanInsert oldL newL r0 rest = some (pre, ins, post) →
      pairPass oldL newL (.remove r0 :: rest)
        = .move ⟨r0.offset, ins.index, 1⟩ :: pairPass oldL newL (pre ++ post)) :=
  ⟨fun oldL newL ins rest pre r post hsc =>
      pairPass_cons_insert oldL newL ins rest pre r post hsc,
   fun oldL newL r0 rest pre ins post hsc =>
      pairPass_cons_remove oldL newL r0 rest pre ins post hsc⟩

/-- Witness for C7: both branches at concrete single-pair inputs; note
the differing to-fields (minus one versus zero) on symmetric data. -/
theorem pairing_branch_asymmetry_witness :
    (scanRemove (['x'] : List Char) ['x'] ⟨0, 0, 1⟩ [.remove ⟨0, 1⟩]
        = some ([], ⟨0, 1⟩, []) ∧
      pairPass (['x'] : List Char) ['x'] [.insert ⟨0, 0, 1⟩, .remove ⟨0, 1⟩]
        = .move ⟨0, -1, 1⟩ :: pairPass (['x'] : List Char) ['x'] (decInserts [] ++ [])) ∧
    (scanInsert (['x'] : List Char) ['x'] ⟨0, 1⟩ [.insert ⟨0, 0, 1⟩]
        = some ([], ⟨0, 0, 1⟩, []) ∧
      pairPass (['x'] : List Char) ['x'] [.remove ⟨0, 1⟩, .insert ⟨0, 0, 1⟩]
        = .move ⟨0, 0, 1⟩ :: pairPass (['x'] : List Char) ['x'] ([] ++ [])) :=
  ⟨⟨rfl, pairing_branch_asymmetry.1 ['x'] ['x'] ⟨0, 0, 1⟩ [.remove ⟨0, 1⟩] [] ⟨0, 1⟩ [] rfl⟩,
   ⟨rfl, pairing_branch_asymmetry.2 ['x'] ['x'] ⟨0, 1⟩ [.insert ⟨0, 0, 1⟩] [] ⟨0, 0, 1⟩ [] rfl⟩⟩

end Differ
